import Mathlib

set_option maxRecDepth 16384

/-
Verification of the linear-hashing set container ADS_set (src/ADS_set.h).

The embedding is a direct functional translation of the template code:

* Bucket (ADS_set::Bucket) is the overflow-chained store of one table slot.
  Its slice chain head..tail is represented as the list of slices before the
  tail (field full) plus the tail slice (field tl); the running size counter
  of Bucket is the field size.  Slice::values holds at most N keys; only the
  first Slice::size entries are live, so a slice is modelled as the list of
  its live keys.
* ADS_set is the table: split_round, table_split_index, table_size,
  table_items_size and the bucket array (a list, indexed with getD).
* size_t arithmetic: all index and size computations stay far below 2^64 in
  every physically realizable run and are modelled on Nat, except the updates
  of table_items_size, where the unsigned wrap-around is reachable (the
  subtraction in ADS_set::split can underflow); those updates are taken
  mod W = 2^64, the modulus of the 64-bit size_t.
* the member add(key, overflowable) appears twice: add models the call with
  overflowable = true and addNF the call with overflowable = false (the
  redistribution path inside split), which removes the mutual recursion
  between add and split.
-/

/-- Modulus of the 64-bit unsigned size_t used by the source. -/
def W : Nat := 2 ^ 64

/-- Hash table entry of ADS_set: a chain of slices.  The chain head..tail is
full ++ [tl]; new keys are appended to the tail slice tl; size is the running
total maintained by Bucket::add and Bucket::clear. -/
structure Bucket (Key : Type) where
  full : List (List Key)
  tl : List Key
  size : Nat
  deriving DecidableEq

namespace Bucket

variable {Key : Type} [DecidableEq Key]

/-- Slice chain of the bucket, head to tail. -/
def slices (b : Bucket Key) : List (List Key) := b.full ++ [b.tl]

/-- Default-constructed Bucket: one empty slice (head = tail), size 0. -/
def empty : Bucket Key := ⟨[], [], 0⟩

/-- Models Bucket::locate: scan every slice of the chain in order and return
the first stored key equal to the argument. -/
def locate (b : Bucket Key) (key : Key) : Option Key :=
  b.slices.flatten.find? fun v => decide (v = key)

/-- Models Bucket::add: if the tail slice already holds N keys, chain a fresh
slice (overflow, reported as true); store the key in the tail slice and
increment the size. -/
def add (N : Nat) (b : Bucket Key) (key : Key) : Bucket Key × Bool :=
  if N ≤ b.tl.length then
    (⟨b.full ++ [b.tl], [key], b.size + 1⟩, true)
  else
    (⟨b.full, b.tl ++ [key], b.size + 1⟩, false)

/-- Models the output buffer of Bucket::copy: every stored key, in
slice-then-intra-slice order. -/
def copy (b : Bucket Key) : List Key := b.slices.flatten

/-- Models Bucket::clear: discard the chain and restart from one empty slice
with size 0 (the result of clear does not depend on the receiver). -/
def clear (_ : Bucket Key) : Bucket Key := empty

/-- Bucket obtained by Bucket::add of the keys of l, in order, into a
default-constructed bucket. -/
def build (N : Nat) (l : List Key) : Bucket Key :=
  l.foldl (fun b k => (b.add N k).1) empty

end Bucket

/-- The linear-hashing table ADS_set: the five data members of the class.
The bucket array (size_type template parameter N is passed to the
operations). -/
@[ext]
structure ADS_set (Key : Type) where
  split_round : Nat
  table_split_index : Nat
  table_size : Nat
  table_items_size : Nat
  table : List (Bucket Key)
  deriving DecidableEq

namespace ADS_set

variable {Key : Type} [DecidableEq Key]

/-- Models the hash function h for the current split round:
hash(key) % (1 << split_round). -/
def h (hash : Key → Nat) (s : ADS_set Key) (key : Key) : Nat :=
  hash key % 2 ^ s.split_round

/-- Models the hash function g for the next split round:
hash(key) % (1 << (split_round + 1)). -/
def g (hash : Key → Nat) (s : ADS_set Key) (key : Key) : Nat :=
  hash key % 2 ^ (s.split_round + 1)

/-- The indexing rule of bucket_at as a function of the split state (d, p)
alone: index = hash(key) mod 2^d, replaced by hash(key) mod 2^(d+1) when that
index is below p. -/
def idxOf (hash : Key → Nat) (d p : Nat) (key : Key) : Nat :=
  let index := hash key % 2 ^ d
  if index < p then hash key % 2 ^ (d + 1) else index

/-- Models ADS_set::bucket_at: index = h(key), replaced by g(key) for already
split buckets (index < table_split_index). -/
def bucket_at (hash : Key → Nat) (s : ADS_set Key) (key : Key) : Nat :=
  let index := h hash s key
  if index < s.table_split_index then g hash s key else index

/-- Models ADS_set::locate: delegate to the bucket selected by bucket_at. -/
def locate (hash : Key → Nat) (s : ADS_set Key) (key : Key) : Option Key :=
  (s.table.getD (bucket_at hash s key) Bucket.empty).locate key

/-- Models ADS_set::count: 1 when locate finds the key, else 0. -/
def count (hash : Key → Nat) (s : ADS_set Key) (key : Key) : Nat :=
  if (locate hash s key).isSome then 1 else 0

/-- Models ADS_set::size. -/
def size (s : ADS_set Key) : Nat := s.table_items_size

/-- Models ADS_set::empty. -/
def empty (s : ADS_set Key) : Bool := s.table_items_size == 0

/-- Models the default constructor: split_round = 1, table_split_index = 0,
table_size = 1 << split_round = 2, two default-constructed buckets. -/
def init : ADS_set Key :=
  ⟨1, 0, 2 ^ 1, 0, List.replicate (2 ^ 1) Bucket.empty⟩

/-- Models ADS_set::reserve: allocate new_table_size default buckets and copy
the first table_size existing buckets over. -/
def reserve (s : ADS_set Key) (new_table_size : Nat) : ADS_set Key :=
  { s with
    table := s.table.take s.table_size ++
      List.replicate (new_table_size - s.table_size) Bucket.empty,
    table_size := new_table_size }

/-- Models lines 274-276 of ADS_set::split: when the bucket array is exhausted
for the current round (table_size == 1 << split_round), double its capacity. -/
def splitResv (s : ADS_set Key) : ADS_set Key :=
  if s.table_size = 2 ^ s.split_round then s.reserve (s.table_size * 2) else s

/-- Models lines 286-291 of ADS_set::split: advance the split pointer, or
reset it to 0 and increment the round when it has reached 1 << split_round. -/
def splitAdvance (s : ADS_set Key) : ADS_set Key :=
  if 2 ^ s.split_round ≤ s.table_split_index then
    { s with table_split_index := 0, split_round := s.split_round + 1 }
  else
    { s with table_split_index := s.table_split_index + 1 }

/-- Models the body of ADS_set::split up to, but not including, the
redistribution loop: optional reserve (doubling), extraction of the keys of
the bucket at table_split_index, clearing that bucket, the (wrapping)
subtraction table_items_size -= to_split_size, and the split-pointer advance.
Returns the resulting state together with the extracted keys. -/
def splitPrep (s : ADS_set Key) : ADS_set Key × List Key :=
  let s0 := splitResv s
  let to_split := s0.table.getD s0.table_split_index Bucket.empty
  (splitAdvance
    { s0 with
      table := s0.table.set s0.table_split_index (to_split.clear),
      table_items_size := (s0.table_items_size + (W - to_split.size % W)) % W },
   to_split.copy)

/-- Models the bucket update step of ADS_set::add (lines 303-305): compute the
index, delegate to Bucket::add, and report the overflow flag. -/
def store (hash : Key → Nat) (N : Nat) (s : ADS_set Key) (key : Key) :
    ADS_set Key × Bool :=
  let index := bucket_at hash s key
  let r := (s.table.getD index Bucket.empty).add N key
  ({ s with table := s.table.set index r.1 }, r.2)

/-- Models ADS_set::add with overflowable = false (the redistribution path
used inside split): duplicate check, bucket update, increment of
table_items_size; the guard (overflowable && overflown) is false, so split is
never invoked on this path. -/
def addNF (hash : Key → Nat) (N : Nat) (s : ADS_set Key) (key : Key) :
    ADS_set Key :=
  if count hash s key ≠ 0 then s
  else
    let p := store hash N s key
    { p.1 with table_items_size := (p.1.table_items_size + 1) % W }

/-- Models ADS_set::split: splitPrep followed by the redistribution loop,
which re-inserts every extracted key with overflowable = false. -/
def split (hash : Key → Nat) (N : Nat) (s : ADS_set Key) : ADS_set Key :=
  let p := splitPrep s
  p.2.foldl (fun t v => addNF hash N t v) p.1

/-- Models ADS_set::add with overflowable = true (the public insert path):
duplicate check, bucket update (store), split when the bucket overflowed,
increment of table_items_size.  The final increment is written once per
branch of the overflow test. -/
def add (hash : Key → Nat) (N : Nat) (s : ADS_set Key) (key : Key) :
    ADS_set Key :=
  if count hash s key ≠ 0 then s
  else if (store hash N s key).2 then
    { split hash N (store hash N s key).1 with
      table_items_size :=
        ((split hash N (store hash N s key).1).table_items_size + 1) % W }
  else
    { (store hash N s key).1 with
      table_items_size := ((store hash N s key).1.table_items_size + 1) % W }

/-- Models insert(first, last) and insert(initializer_list): add every element
in order.  The initializer-list and range constructors are init.insertAll. -/
def insertAll (hash : Key → Nat) (N : Nat) (s : ADS_set Key) (l : List Key) :
    ADS_set Key :=
  l.foldl (fun t k => add hash N t k) s

/-- Modelled from the spec: clear() conceptually swaps in a freshly
constructed empty table and discards the old one, leaving the
default-constructed state.  What is missing is a compilable source
implementation: the source's clear (ADS_set.h:140) instantiates
ADS_set::swap (ADS_set.h:350-357), whose std::swap(hash, other.hash) on the
member declared const hasher hash (ADS_set.h:77) is ill-formed because
std::swap requires a move-assignable type, so clear()/swap() fail to compile
at any use site.  This definition models the documented intent of the
reset. -/
def clear (_ : ADS_set Key) : ADS_set Key := init

/-- Number of split invocations performed by one call of
add(key, overflowable).  When the split branch is taken it performs one split;
each redistribution re-insert runs add(v, false), whose guard
(overflowable && overflown) is false, so it performs zero further splits:
the fold adds 0 per redistributed key. -/
def addSplitCount (hash : Key → Nat) (N : Nat) (s : ADS_set Key) (key : Key)
    (overflowable : Bool) : Nat :=
  if count hash s key ≠ 0 then 0
  else if overflowable && (store hash N s key).2 then
    1 + ((store hash N s key).1.splitPrep.2.foldl (fun acc _ => acc + 0) 0)
  else 0

/-- Number of split invocations performed while inserting every element of l
in order through the public path add(key, true). -/
def insertAllSplitCount (hash : Key → Nat) (N : Nat) (s : ADS_set Key)
    (l : List Key) : Nat :=
  (l.foldl (fun p k => (add hash N p.1 k, p.2 + addSplitCount hash N p.1 k true))
    (s, 0)).2

/-- State of the table after the first n re-insertions of the redistribution
loop of the split that would be triggered by storing key k0 into s: the
transient states passed through by ADS_set::split, right after the split
pointer has advanced. -/
def splitMid (hash : Key → Nat) (N : Nat) (s : ADS_set Key) (k0 : Key)
    (n : Nat) : ADS_set Key :=
  ((splitPrep (store hash N s k0).1).2.take n).foldl (addNF hash N)
    (splitPrep (store hash N s k0).1).1

/-- Ghost state used to describe the redistribution loop of a round-boundary
split (table_split_index = 2^split_round): after re-inserting the prefix u of
the extracted keys, the round has been incremented, the pointer reset, the
bucket at the old split pointer holds exactly the bucket rebuilt from u, and
the item counter has advanced by the length of u past the (wrapped)
subtraction of m. -/
def roundRebuild (N : Nat) (s : ADS_set Key) (m : Nat) (u : List Key) :
    ADS_set Key :=
  { s with
    split_round := s.split_round + 1,
    table_split_index := 0,
    table := s.table.set s.table_split_index (Bucket.build N u),
    table_items_size :=
      ((s.table_items_size + (W - m % W)) % W + u.length) % W }

/-- States reachable from a default-constructed table by insert operations. -/
inductive Reachable (hash : Key → Nat) (N : Nat) : ADS_set Key → Prop where
  | base : Reachable hash N init
  | step (s : ADS_set Key) (k : Key) :
      Reachable hash N s → Reachable hash N (add hash N s k)

/-- Multiset of all keys stored anywhere in the table, in bucket order. -/
def allKeys (s : ADS_set Key) : List Key := (s.table.map Bucket.copy).flatten

/-- Geometry invariant: the bucket list realizes table_size, the round is at
least 1, and the split state is either at a round start
(table_split_index = 0, table_size = 2^split_round) or mid-round
(1 ≤ table_split_index ≤ 2^split_round, table_size = 2^(split_round+1)). -/
def Geom (s : ADS_set Key) : Prop :=
  s.table.length = s.table_size ∧ 1 ≤ s.split_round ∧
    ((s.table_split_index = 0 ∧ s.table_size = 2 ^ s.split_round) ∨
      (1 ≤ s.table_split_index ∧ s.table_split_index ≤ 2 ^ s.split_round ∧
        s.table_size = 2 ^ (s.split_round + 1)))

/-- Placement invariant: every stored key resides in exactly the bucket that
bucket_at computes from the current split state. -/
def Placed (hash : Key → Nat) (s : ADS_set Key) : Prop :=
  ∀ i ∈ List.range s.table.length,
    ∀ k ∈ (s.table.getD i Bucket.empty).copy, bucket_at hash s k = i

/-- Structural invariant: geometry, placement, global absence of duplicates,
and every bucket is exactly the bucket built by adding its keys in order
(slice layout is canonical). -/
def InvCore (hash : Key → Nat) (N : Nat) (s : ADS_set Key) : Prop :=
  Geom s ∧ Placed hash s ∧ (allKeys s).Nodup ∧
    ∀ b ∈ s.table, b = Bucket.build N b.copy

/-- Full invariant: InvCore plus the item counter agreeing (mod W) with the
number of stored keys. -/
def Inv (hash : Key → Nat) (N : Nat) (s : ADS_set Key) : Prop :=
  InvCore hash N s ∧ s.table_items_size = (allKeys s).length % W

instance (s : ADS_set Key) : Decidable (Geom s) := by
  unfold Geom; infer_instance

instance (hash : Key → Nat) (s : ADS_set Key) : Decidable (Placed hash s) := by
  unfold Placed; infer_instance

instance (hash : Key → Nat) (N : Nat) (s : ADS_set Key) :
    Decidable (InvCore hash N s) := by
  unfold InvCore; infer_instance

instance (hash : Key → Nat) (N : Nat) (s : ADS_set Key) :
    Decidable (Inv hash N s) := by
  unfold Inv; infer_instance

end ADS_set

/-- Identity hash on Nat, instantiating the hasher std::hash for unsigned
integer keys (libstdc++ and libc++ hash an integer to itself). -/
def idHash : Nat → Nat := fun k => k

/-- Concrete insertion sequence (bucket capacity N = 5, identity hash) that
drives the table through two splits, reaching split_round = 1,
table_split_index = 2: five even keys fill bucket 0, the sixth even key
overflows it (first split), then five odd keys fill bucket 1 and the sixth
odd key overflows it (second split). -/
def seq12 : List Nat := [0, 2, 4, 6, 8, 10, 1, 3, 5, 7, 9, 11]

-- ===================== Theorems =====================

theorem W_pos : 0 < W := by norm_num [W]

theorem list_set_decomp {α : Type} (L : List α) (i : Nat) (a : α)
    (hi : i < L.length) : L.set i a = L.take i ++ a :: L.drop (i + 1) := by
  induction L generalizing i with
  | nil => simp at hi
  | cons x xs ih =>
    cases i with
    | zero => simp
    | succ n => simp [ih n (by simpa using hi)]

theorem list_getD_eq_getElem {α : Type} (L : List α) (i : Nat) (d : α)
    (hi : i < L.length) : L.getD i d = L[i] := by
  simp [List.getD_eq_getElem?_getD, List.getElem?_eq_getElem hi]

theorem list_getD_of_le {α : Type} (L : List α) (i : Nat) (d : α)
    (hi : L.length ≤ i) : L.getD i d = d := by
  simp [List.getD_eq_getElem?_getD, List.getElem?_eq_none hi]

theorem list_getD_decomp {α : Type} (L : List α) (i : Nat) (d : α)
    (hi : i < L.length) : L = L.take i ++ L.getD i d :: L.drop (i + 1) := by
  rw [list_getD_eq_getElem L i d hi, List.getElem_cons_drop L i hi,
    List.take_append_drop]

theorem list_getD_set_self {α : Type} (L : List α) (i : Nat) (a d : α)
    (hi : i < L.length) : (L.set i a).getD i d = a := by
  rw [list_getD_eq_getElem _ i d (by simpa using hi)]
  exact List.getElem_set_self (by simpa using hi)

theorem list_getD_set_ne {α : Type} (L : List α) (i j : Nat) (a d : α)
    (hij : i ≠ j) : (L.set i a).getD j d = L.getD j d := by
  simp [List.getD_eq_getElem?_getD, List.getElem?_set_ne hij]

theorem list_set_getD_self {α : Type} (L : List α) (i : Nat) (d : α)
    (hi : i < L.length) : L.set i (L.getD i d) = L := by
  rw [list_set_decomp L i _ hi]
  exact (list_getD_decomp L i d hi).symm

theorem flatten_map_decomp {α β : Type} (f : α → List β) (L : List α) (i : Nat)
    (d : α) (hi : i < L.length) :
    (L.map f).flatten =
      ((L.take i).map f).flatten ++ f (L.getD i d) ++
        ((L.drop (i + 1)).map f).flatten := by
  conv_lhs => rw [list_getD_decomp L i d hi]
  simp [List.flatten_append]

theorem flatten_map_set {α β : Type} (f : α → List β) (L : List α) (i : Nat)
    (a : α) (hi : i < L.length) :
    ((L.set i a).map f).flatten =
      ((L.take i).map f).flatten ++ f a ++ ((L.drop (i + 1)).map f).flatten := by
  rw [list_set_decomp L i a hi]
  simp [List.flatten_append]

theorem perm_extract_mid {α : Type} (T V D : List α) :
    List.Perm (T ++ V ++ D) (V ++ (T ++ D)) := by
  have h1 : List.Perm ((T ++ V) ++ D) ((V ++ T) ++ D) :=
    List.Perm.append_right D List.perm_append_comm
  simpa [List.append_assoc] using h1

theorem perm_concat_mid {α : Type} (T B D : List α) (k : α) :
    List.Perm (T ++ (B ++ [k]) ++ D) ((T ++ B ++ D) ++ [k]) := by
  have h1 : List.Perm ([k] ++ D) (D ++ [k]) := List.perm_append_comm
  have h2 := h1.append_left (T ++ B)
  simpa [List.append_assoc] using h2

theorem foldl_add_zero {α : Type} (l : List α) (n : Nat) :
    l.foldl (fun acc _ => acc + 0) n = n := by
  induction l generalizing n with
  | nil => rfl
  | cons x xs ih => simpa using ih n

theorem flatten_replicate_nil {α : Type} (m : Nat) :
    (List.replicate m ([] : List α)).flatten = [] := by
  induction m with
  | zero => rfl
  | succ n ih => simp [List.replicate_succ, ih]

theorem list_getD_append_left {α : Type} (l₁ l₂ : List α) (i : Nat) (d : α)
    (hi : i < l₁.length) : (l₁ ++ l₂).getD i d = l₁.getD i d := by
  simp [List.getD_eq_getElem?_getD, List.getElem?_append_left hi]

theorem list_getD_append_replicate {α : Type} (l : List α) (m : Nat) (e : α)
    (i : Nat) (hi : l.length ≤ i) : (l ++ List.replicate m e).getD i e = e := by
  simp only [List.getD_eq_getElem?_getD, List.getElem?_append_right hi,
    List.getElem?_replicate]
  split <;> simp

theorem mod_sub_add_cancel (x m : Nat) :
    ((x + (W - m % W)) % W + m) % W = x % W := by
  rw [Nat.mod_add_mod]
  have hr : m % W < W := Nat.mod_lt m W_pos
  have hd := Nat.div_add_mod m W
  have hW : W = 18446744073709551616 := by norm_num [W]
  have he : x + (W - m % W) + m = x + W * (m / W + 1) := by
    rw [hW] at hr hd ⊢
    omega
  rw [he]
  exact Nat.add_mul_mod_self_left x W (m / W + 1)

namespace Bucket

variable {Key : Type} [DecidableEq Key]

theorem copy_empty : (empty : Bucket Key).copy = [] := rfl

theorem size_empty : (empty : Bucket Key).size = 0 := rfl

theorem copy_add (N : Nat) (b : Bucket Key) (k : Key) :
    ((b.add N k).1).copy = b.copy ++ [k] := by
  unfold add copy slices
  split <;> simp

theorem size_add (N : Nat) (b : Bucket Key) (k : Key) :
    ((b.add N k).1).size = b.size + 1 := by
  unfold add
  split <;> rfl

theorem locate_isSome_iff (b : Bucket Key) (k : Key) :
    (b.locate k).isSome ↔ k ∈ b.copy := by
  unfold locate copy
  rw [List.find?_isSome]
  constructor
  · rintro ⟨x, hx, he⟩
    have hxk : x = k := of_decide_eq_true he
    exact hxk ▸ hx
  · intro hk
    exact ⟨k, hk, by simp⟩

theorem build_nil (N : Nat) : build N ([] : List Key) = empty := rfl

theorem build_concat (N : Nat) (l : List Key) (k : Key) :
    build N (l ++ [k]) = ((build N l).add N k).1 := by
  unfold build
  rw [List.foldl_append]
  rfl

theorem copy_build (N : Nat) (l : List Key) : (build N l).copy = l := by
  induction l using List.reverseRecOn with
  | nil => rfl
  | append_singleton xs x ih => rw [build_concat, copy_add, ih]

theorem size_build (N : Nat) (l : List Key) : (build N l).size = l.length := by
  induction l using List.reverseRecOn with
  | nil => rfl
  | append_singleton xs x ih => rw [build_concat, size_add, ih]; simp

end Bucket

namespace ADS_set

variable {Key : Type} [DecidableEq Key]

theorem bucket_at_eq_idxOf (hash : Key → Nat) (s : ADS_set Key) (key : Key) :
    bucket_at hash s key = idxOf hash s.split_round s.table_split_index key := rfl

theorem bucket_at_congr (hash : Key → Nat) (s t : ADS_set Key)
    (hd : s.split_round = t.split_round)
    (hp : s.table_split_index = t.table_split_index) (k : Key) :
    bucket_at hash s k = bucket_at hash t k := by
  rw [bucket_at_eq_idxOf, bucket_at_eq_idxOf, hd, hp]

theorem idxOf_succ (hash : Key → Nat) (d p : Nat) (k : Key)
    (hne : idxOf hash d p k ≠ p) : idxOf hash d (p + 1) k = idxOf hash d p k := by
  unfold idxOf at hne ⊢
  by_cases hlt : hash k % 2 ^ d < p
  · simp only [hlt, if_true, Nat.lt_succ_of_lt hlt]
  · simp only [hlt, if_false] at hne ⊢
    have : ¬ hash k % 2 ^ d < p + 1 := by omega
    simp [this]

theorem idxOf_roundinc (hash : Key → Nat) (d : Nat) (k : Key) :
    idxOf hash (d + 1) 0 k = idxOf hash d (2 ^ d) k := by
  unfold idxOf
  have h1 : hash k % 2 ^ d < 2 ^ d := Nat.mod_lt _ (Nat.pos_pow_of_pos d (by norm_num))
  simp [h1]

/-- Membership in allKeys in terms of the buckets. -/
theorem mem_allKeys_iff (s : ADS_set Key) (k : Key) :
    k ∈ allKeys s ↔ ∃ b ∈ s.table, k ∈ b.copy := by
  simp [allKeys, List.mem_flatten]

theorem mem_allKeys_iff_getD (s : ADS_set Key) (k : Key) :
    k ∈ allKeys s ↔
      ∃ i, i < s.table.length ∧ k ∈ (s.table.getD i Bucket.empty).copy := by
  rw [mem_allKeys_iff]
  constructor
  · rintro ⟨b, hb, hk⟩
    obtain ⟨i, hi, he⟩ := List.mem_iff_getElem.mp hb
    exact ⟨i, hi, by rwa [list_getD_eq_getElem _ _ _ hi, he]⟩
  · rintro ⟨i, hi, hk⟩
    exact ⟨s.table.getD i Bucket.empty,
      by rw [list_getD_eq_getElem _ _ _ hi]; exact List.getElem_mem hi, hk⟩

theorem count_eq_zero_of_not_mem (hash : Key → Nat) (s : ADS_set Key) (k : Key)
    (hk : k ∉ allKeys s) : count hash s k = 0 := by
  have hnone : ¬ (locate hash s k).isSome := by
    unfold locate
    rw [Bucket.locate_isSome_iff]
    intro hmem
    by_cases hlt : bucket_at hash s k < s.table.length
    · exact hk ((mem_allKeys_iff_getD s k).mpr ⟨_, hlt, hmem⟩)
    · rw [list_getD_of_le _ _ _ (by omega)] at hmem
      simp [Bucket.copy_empty] at hmem
  unfold count
  simp [hnone]

theorem count_eq_one_of_mem (hash : Key → Nat) (s : ADS_set Key) (k : Key)
    (hp : Placed hash s) (hk : k ∈ allKeys s) : count hash s k = 1 := by
  obtain ⟨i, hi, hmem⟩ := (mem_allKeys_iff_getD s k).mp hk
  have hat : bucket_at hash s k = i := hp i (List.mem_range.mpr hi) k hmem
  have hsome : (locate hash s k).isSome := by
    unfold locate
    rw [hat]
    exact (Bucket.locate_isSome_iff _ k).mpr hmem
  unfold count
  simp [hsome]

theorem count_ne_zero_iff (hash : Key → Nat) (s : ADS_set Key) (k : Key)
    (hp : Placed hash s) : count hash s k ≠ 0 ↔ k ∈ allKeys s := by
  constructor
  · intro hne
    by_contra hmem
    exact hne (count_eq_zero_of_not_mem hash s k hmem)
  · intro hmem
    rw [count_eq_one_of_mem hash s k hp hmem]
    omega

theorem store_split_round (hash : Key → Nat) (N : Nat) (s : ADS_set Key) (k : Key) :
    (store hash N s k).1.split_round = s.split_round := rfl

theorem store_table_split_index (hash : Key → Nat) (N : Nat) (s : ADS_set Key)
    (k : Key) : (store hash N s k).1.table_split_index = s.table_split_index := rfl

theorem store_table_size (hash : Key → Nat) (N : Nat) (s : ADS_set Key) (k : Key) :
    (store hash N s k).1.table_size = s.table_size := rfl

theorem store_table_items_size (hash : Key → Nat) (N : Nat) (s : ADS_set Key)
    (k : Key) : (store hash N s k).1.table_items_size = s.table_items_size := rfl

theorem store_table (hash : Key → Nat) (N : Nat) (s : ADS_set Key) (k : Key) :
    (store hash N s k).1.table =
      s.table.set (bucket_at hash s k)
        ((s.table.getD (bucket_at hash s k) Bucket.empty).add N k).1 := rfl

theorem store_snd (hash : Key → Nat) (N : Nat) (s : ADS_set Key) (k : Key) :
    (store hash N s k).2 =
      ((s.table.getD (bucket_at hash s k) Bucket.empty).add N k).2 := rfl

theorem store_table_length (hash : Key → Nat) (N : Nat) (s : ADS_set Key)
    (k : Key) : (store hash N s k).1.table.length = s.table.length := by
  rw [store_table]
  simp

theorem geom_congr (s t : ADS_set Key) (hl : s.table.length = t.table.length)
    (hd : s.split_round = t.split_round)
    (hp : s.table_split_index = t.table_split_index)
    (hts : s.table_size = t.table_size) : Geom s ↔ Geom t := by
  unfold Geom
  rw [hl, hd, hp, hts]

theorem allKeys_items_update (s : ADS_set Key) (n : Nat) :
    allKeys { s with table_items_size := n } = allKeys s := rfl

theorem pow_lt_pow_succ_two (d : Nat) : 2 ^ d < 2 ^ (d + 1) := by
  have hpos : 0 < 2 ^ d := Nat.pos_pow_of_pos d (by norm_num)
  rw [Nat.pow_succ]
  omega

theorem bucket_at_lt_of_geom (hash : Key → Nat) (s : ADS_set Key) (k : Key)
    (hg : Geom s) : bucket_at hash s k < s.table_size := by
  obtain ⟨hl, hd, hcase⟩ := hg
  rw [bucket_at_eq_idxOf]
  simp only [idxOf]
  have hm : hash k % 2 ^ s.split_round < 2 ^ s.split_round :=
    Nat.mod_lt _ (Nat.pos_pow_of_pos _ (by norm_num))
  have hm2 : hash k % 2 ^ (s.split_round + 1) < 2 ^ (s.split_round + 1) :=
    Nat.mod_lt _ (Nat.pos_pow_of_pos _ (by norm_num))
  have hstep := pow_lt_pow_succ_two s.split_round
  rcases hcase with ⟨hp0, hts⟩ | ⟨hp1, hple, hts⟩ <;> rw [hts] <;> split <;> omega

theorem store_spec (hash : Key → Nat) (N : Nat) (s : ADS_set Key) (k : Key)
    (hs : InvCore hash N s) (hk : k ∉ allKeys s) :
    InvCore hash N (store hash N s k).1 ∧
    List.Perm (allKeys (store hash N s k).1) (allKeys s ++ [k]) := by
  obtain ⟨hg, hp, hnd, hcanon⟩ := hs
  have hilt : bucket_at hash s k < s.table.length := by
    rw [hg.1]
    exact bucket_at_lt_of_geom hash s k hg
  have hbmem : s.table.getD (bucket_at hash s k) Bucket.empty ∈ s.table := by
    rw [list_getD_eq_getElem _ _ _ hilt]
    exact List.getElem_mem hilt
  have hb2copy :
      (((s.table.getD (bucket_at hash s k) Bucket.empty).add N k).1).copy =
        (s.table.getD (bucket_at hash s k) Bucket.empty).copy ++ [k] :=
    Bucket.copy_add N _ k
  have hdecomp := flatten_map_decomp Bucket.copy s.table (bucket_at hash s k)
    Bucket.empty hilt
  have hset := flatten_map_set Bucket.copy s.table (bucket_at hash s k)
    ((s.table.getD (bucket_at hash s k) Bucket.empty).add N k).1 hilt
  have hAK : allKeys s =
      ((s.table.take (bucket_at hash s k)).map Bucket.copy).flatten ++
        (s.table.getD (bucket_at hash s k) Bucket.empty).copy ++
        ((s.table.drop (bucket_at hash s k + 1)).map Bucket.copy).flatten := hdecomp
  have hAK' : allKeys (store hash N s k).1 =
      ((s.table.take (bucket_at hash s k)).map Bucket.copy).flatten ++
        ((s.table.getD (bucket_at hash s k) Bucket.empty).copy ++ [k]) ++
        ((s.table.drop (bucket_at hash s k + 1)).map Bucket.copy).flatten := by
    show ((s.table.set _ _).map Bucket.copy).flatten = _
    rw [hset, hb2copy]
  have hperm : List.Perm (allKeys (store hash N s k).1) (allKeys s ++ [k]) := by
    rw [hAK, hAK']
    exact perm_concat_mid _ _ _ k
  refine ⟨⟨?_, ?_, ?_, ?_⟩, hperm⟩
  · exact (geom_congr _ s (store_table_length hash N s k) rfl rfl rfl).mpr hg
  · intro j hj x hx
    rw [List.mem_range, store_table_length] at hj
    rw [store_table] at hx
    have hcongr : ∀ y, bucket_at hash (store hash N s k).1 y = bucket_at hash s y :=
      fun y => bucket_at_congr hash _ s rfl rfl y
    rw [hcongr]
    by_cases hji : j = bucket_at hash s k
    · subst hji
      rw [list_getD_set_self _ _ _ _ hilt, hb2copy] at hx
      rcases List.mem_append.mp hx with hxb | hxk
      · exact hp _ (List.mem_range.mpr hilt) x hxb
      · rw [List.mem_singleton.mp hxk]
    · rw [list_getD_set_ne _ _ _ _ _ (fun he => hji he.symm)] at hx
      exact hp j (List.mem_range.mpr hj) x hx
  · rw [hperm.nodup_iff]
    simp only [List.nodup_append, List.nodup_cons, List.nodup_nil]
    refine ⟨hnd, by simp, ?_⟩
    intro a ha hb
    simp at hb
    exact hk (hb ▸ ha)
  · intro b' hb'
    rw [store_table] at hb'
    rcases List.mem_or_eq_of_mem_set hb' with hmem | heq
    · exact hcanon b' hmem
    · subst heq
      rw [hb2copy, Bucket.build_concat,
        ← hcanon _ hbmem]

theorem addNF_of_mem (hash : Key → Nat) (N : Nat) (s : ADS_set Key) (k : Key)
    (hp : Placed hash s) (hk : k ∈ allKeys s) : addNF hash N s k = s := by
  unfold addNF
  rw [if_pos ((count_ne_zero_iff hash s k hp).mpr hk)]

theorem add_of_mem (hash : Key → Nat) (N : Nat) (s : ADS_set Key) (k : Key)
    (hp : Placed hash s) (hk : k ∈ allKeys s) : add hash N s k = s := by
  unfold add
  rw [if_pos ((count_ne_zero_iff hash s k hp).mpr hk)]

theorem invCore_items_update (hash : Key → Nat) (N : Nat) (s : ADS_set Key)
    (n : Nat) :
    InvCore hash N { s with table_items_size := n } ↔ InvCore hash N s :=
  Iff.rfl

theorem addNF_spec (hash : Key → Nat) (N : Nat) (s : ADS_set Key) (k : Key)
    (hs : InvCore hash N s) (hk : k ∉ allKeys s) :
    InvCore hash N (addNF hash N s k) ∧
    List.Perm (allKeys (addNF hash N s k)) (allKeys s ++ [k]) ∧
    (addNF hash N s k).split_round = s.split_round ∧
    (addNF hash N s k).table_split_index = s.table_split_index ∧
    (addNF hash N s k).table_size = s.table_size ∧
    (addNF hash N s k).table.length = s.table.length ∧
    (addNF hash N s k).table_items_size = (s.table_items_size + 1) % W := by
  have hc : count hash s k = 0 := count_eq_zero_of_not_mem hash s k hk
  have hres : addNF hash N s k =
      { (store hash N s k).1 with
        table_items_size := ((store hash N s k).1.table_items_size + 1) % W } := by
    unfold addNF
    rw [if_neg (by simp [hc])]
  obtain ⟨hcore, hperm⟩ := store_spec hash N s k hs hk
  rw [hres]
  exact ⟨(invCore_items_update hash N _ _).mpr hcore,
    by rw [allKeys_items_update]; exact hperm,
    rfl, rfl, rfl, store_table_length hash N s k, rfl⟩

theorem foldl_addNF_spec (hash : Key → Nat) (N : Nat) :
    ∀ (vs : List Key) (s : ADS_set Key), InvCore hash N s →
    s.table_items_size < W → vs.Nodup → (∀ v ∈ vs, v ∉ allKeys s) →
    InvCore hash N (vs.foldl (addNF hash N) s) ∧
    List.Perm (allKeys (vs.foldl (addNF hash N) s)) (allKeys s ++ vs) ∧
    (vs.foldl (addNF hash N) s).split_round = s.split_round ∧
    (vs.foldl (addNF hash N) s).table_split_index = s.table_split_index ∧
    (vs.foldl (addNF hash N) s).table_size = s.table_size ∧
    (vs.foldl (addNF hash N) s).table.length = s.table.length ∧
    (vs.foldl (addNF hash N) s).table_items_size =
      (s.table_items_size + vs.length) % W := by
  intro vs
  induction vs with
  | nil =>
    intro s hs hsW _ _
    exact ⟨hs, by simp, rfl, rfl, rfl, rfl, by simp [Nat.mod_eq_of_lt hsW]⟩
  | cons v rest ih =>
    intro s hs hsW hnd hfresh
    have hv : v ∉ allKeys s := hfresh v (by simp)
    obtain ⟨h1, h2, h3, h4, h5, h6, h7⟩ := addNF_spec hash N s v hs hv
    have hrestfresh : ∀ x ∈ rest, x ∉ allKeys (addNF hash N s v) := by
      intro x hx hmem
      rcases (List.mem_append.mp (h2.mem_iff.mp hmem)) with hin | hsing
      · exact hfresh x (by simp [hx]) hin
      · rw [List.mem_singleton.mp hsing] at hx
        exact (List.nodup_cons.mp hnd).1 hx
    have hW1 : (addNF hash N s v).table_items_size < W := by
      rw [h7]
      exact Nat.mod_lt _ W_pos
    obtain ⟨g1, g2, g3, g4, g5, g6, g7⟩ :=
      ih (addNF hash N s v) h1 hW1 (List.nodup_cons.mp hnd).2 hrestfresh
    rw [List.foldl_cons] at *
    refine ⟨g1, ?_, by rw [g3, h3], by rw [g4, h4], by rw [g5, h5],
      by rw [g6, h6], ?_⟩
    · refine g2.trans ?_
      have := (h2.append_right rest)
      refine this.trans ?_
      simp [List.append_assoc]
    · rw [g7, h7, Nat.mod_add_mod, List.length_cons]
      congr 1
      omega

theorem splitAdvance_table (s : ADS_set Key) : (splitAdvance s).table = s.table := by
  unfold splitAdvance
  split <;> rfl

theorem splitAdvance_table_size (s : ADS_set Key) :
    (splitAdvance s).table_size = s.table_size := by
  unfold splitAdvance
  split <;> rfl

theorem splitAdvance_table_items_size (s : ADS_set Key) :
    (splitAdvance s).table_items_size = s.table_items_size := by
  unfold splitAdvance
  split <;> rfl

theorem splitAdvance_of_le (s : ADS_set Key)
    (hle : 2 ^ s.split_round ≤ s.table_split_index) :
    (splitAdvance s).split_round = s.split_round + 1 ∧
    (splitAdvance s).table_split_index = 0 := by
  unfold splitAdvance
  rw [if_pos hle]
  exact ⟨rfl, rfl⟩

theorem splitAdvance_of_lt (s : ADS_set Key)
    (hlt : ¬ 2 ^ s.split_round ≤ s.table_split_index) :
    (splitAdvance s).split_round = s.split_round ∧
    (splitAdvance s).table_split_index = s.table_split_index + 1 := by
  unfold splitAdvance
  rw [if_neg hlt]
  exact ⟨rfl, rfl⟩

theorem splitPrep_fst (s : ADS_set Key) :
    (splitPrep s).1 = splitAdvance
      { splitResv s with
        table := (splitResv s).table.set (splitResv s).table_split_index
          (((splitResv s).table.getD (splitResv s).table_split_index
            Bucket.empty).clear),
        table_items_size := ((splitResv s).table_items_size +
          (W - ((splitResv s).table.getD (splitResv s).table_split_index
            Bucket.empty).size % W)) % W } := rfl

theorem splitPrep_snd (s : ADS_set Key) :
    (splitPrep s).2 = ((splitResv s).table.getD (splitResv s).table_split_index
      Bucket.empty).copy := rfl

theorem splitResv_spec (hash : Key → Nat) (N : Nat) (s : ADS_set Key)
    (hs : InvCore hash N s) :
    Placed hash (splitResv s) ∧
    allKeys (splitResv s) = allKeys s ∧
    (∀ b ∈ (splitResv s).table, b = Bucket.build N b.copy) ∧
    (splitResv s).split_round = s.split_round ∧
    (splitResv s).table_split_index = s.table_split_index ∧
    (splitResv s).table_items_size = s.table_items_size ∧
    (splitResv s).table_size = 2 ^ (s.split_round + 1) ∧
    (splitResv s).table.length = (splitResv s).table_size ∧
    (∀ i, i < s.table.length →
      (splitResv s).table.getD i Bucket.empty = s.table.getD i Bucket.empty) ∧
    (∀ i, s.table.length ≤ i →
      (splitResv s).table.getD i Bucket.empty = Bucket.empty) := by
  obtain ⟨⟨hl, hd1, hcase⟩, hp, hnd, hcanon⟩ := hs
  unfold splitResv
  by_cases hres : s.table_size = 2 ^ s.split_round
  · rw [if_pos hres]
    have hts2 : ∀ t : ADS_set Key, t = s.reserve (s.table_size * 2) →
        t.table = s.table ++ List.replicate s.table_size Bucket.empty ∧
        t.table_size = s.table_size * 2 ∧ t.split_round = s.split_round ∧
        t.table_split_index = s.table_split_index ∧
        t.table_items_size = s.table_items_size := by
      intro t ht
      subst ht
      have htake : s.table.take s.table_size = s.table :=
        List.take_of_length_le (le_of_eq hl)
      have hsub : s.table_size * 2 - s.table_size = s.table_size := by omega
      refine ⟨?_, rfl, rfl, rfl, rfl⟩
      show s.table.take s.table_size ++ _ = _
      rw [htake, hsub]
    obtain ⟨htab, hts, hdd, hpp, hii⟩ := hts2 _ rfl
    have hgetl : ∀ i, i < s.table.length →
        (s.reserve (s.table_size * 2)).table.getD i Bucket.empty =
          s.table.getD i Bucket.empty := by
      intro i hi
      rw [htab]
      exact list_getD_append_left _ _ i _ hi
    have hgetr : ∀ i, s.table.length ≤ i →
        (s.reserve (s.table_size * 2)).table.getD i Bucket.empty =
          Bucket.empty := by
      intro i hi
      rw [htab]
      exact list_getD_append_replicate _ _ _ i hi
    have hAK : allKeys (s.reserve (s.table_size * 2)) = allKeys s := by
      unfold allKeys
      rw [htab]
      simp [List.map_replicate, flatten_replicate_nil, Bucket.copy_empty]
    have hlen : (s.reserve (s.table_size * 2)).table.length =
        (s.reserve (s.table_size * 2)).table_size := by
      rw [htab, hts]
      simp
      omega
    refine ⟨?_, hAK, ?_, hdd, hpp, hii, by rw [hts, hres, Nat.pow_succ],
      hlen, hgetl, hgetr⟩
    · intro i hi x hx
      rw [List.mem_range] at hi
      by_cases hilt : i < s.table.length
      · rw [hgetl i hilt] at hx
        have := hp i (List.mem_range.mpr hilt) x hx
        rw [← this]
        exact bucket_at_congr hash _ s hdd hpp x
      · rw [hgetr i (by omega)] at hx
        simp [Bucket.copy_empty] at hx
    · intro b hb
      rw [htab] at hb
      rcases List.mem_append.mp hb with hbo | hbr
      · exact hcanon b hbo
      · rw [List.eq_of_mem_replicate hbr]
        rfl
  · rw [if_neg hres]
    have hts : s.table_size = 2 ^ (s.split_round + 1) := by
      rcases hcase with ⟨_, hts⟩ | ⟨_, _, hts⟩
      · exact absurd hts hres
      · exact hts
    exact ⟨hp, rfl, hcanon, rfl, rfl, rfl, hts, hl, by
      intro i _
      rfl, by
      intro i hi
      exact list_getD_of_le _ _ _ hi⟩

theorem allKeys_splitAdvance (s : ADS_set Key) :
    allKeys (splitAdvance s) = allKeys s := by
  unfold allKeys
  rw [splitAdvance_table]

theorem splitPrep_spec (hash : Key → Nat) (N : Nat) (s : ADS_set Key)
    (hs : InvCore hash N s) :
    InvCore hash N (splitPrep s).1 ∧
    List.Perm (allKeys s) ((splitPrep s).2 ++ allKeys (splitPrep s).1) ∧
    (splitPrep s).2.Nodup ∧
    (∀ v ∈ (splitPrep s).2, v ∉ allKeys (splitPrep s).1) ∧
    (splitPrep s).1.table_items_size =
      (s.table_items_size + (W - (splitPrep s).2.length % W)) % W ∧
    (splitPrep s).1.table_size = 2 ^ (s.split_round + 1) ∧
    ((s.table_split_index = 2 ^ s.split_round ∧
        (splitPrep s).1.split_round = s.split_round + 1 ∧
        (splitPrep s).1.table_split_index = 0) ∨
      (s.table_split_index < 2 ^ s.split_round ∧
        (splitPrep s).1.split_round = s.split_round ∧
        (splitPrep s).1.table_split_index = s.table_split_index + 1)) := by
  obtain ⟨hpl0, hAK0, hcanon0, hd0, hp0, hi0, hts0, hlen0, hgl, hgr⟩ :=
    splitResv_spec hash N s hs
  obtain ⟨⟨hl, hd1, hcaseS⟩, hpS, hndS, hcanonS⟩ := hs
  have hple : s.table_split_index ≤ 2 ^ s.split_round := by
    rcases hcaseS with ⟨h0, _⟩ | ⟨_, hle, _⟩
    · omega
    · exact hle
  have hplt : s.table_split_index < (splitResv s).table.length := by
    rw [hlen0, hts0]
    have := pow_lt_pow_succ_two s.split_round
    omega
  rw [splitPrep_fst, splitPrep_snd, hp0]
  have hBcanon : (splitResv s).table.getD s.table_split_index Bucket.empty =
      Bucket.build N
        ((splitResv s).table.getD s.table_split_index Bucket.empty).copy := by
    rw [list_getD_eq_getElem _ _ _ hplt]
    exact hcanon0 _ (List.getElem_mem hplt)
  have hBsize : ((splitResv s).table.getD s.table_split_index Bucket.empty).size =
      ((splitResv s).table.getD s.table_split_index Bucket.empty).copy.length := by
    conv_lhs => rw [hBcanon]
    rw [Bucket.size_build]
  have hdec := flatten_map_decomp Bucket.copy (splitResv s).table
    s.table_split_index Bucket.empty hplt
  have hsetdec := flatten_map_set Bucket.copy (splitResv s).table
    s.table_split_index Bucket.empty hplt
  -- abbreviate
  set R := splitResv s with hR
  set pI := s.table_split_index with hpI
  set B := R.table.getD pI Bucket.empty with hB
  set T := ((R.table.take pI).map Bucket.copy).flatten with hT
  set D := ((R.table.drop (pI + 1)).map Bucket.copy).flatten with hD
  set sc : ADS_set Key :=
    { R with
      table := R.table.set pI B.clear,
      table_items_size := (R.table_items_size + (W - B.size % W)) % W } with hsc
  have hscd : sc.split_round = s.split_round := hd0
  have hscp : sc.table_split_index = pI := hp0
  have hsctab : sc.table = R.table.set pI Bucket.empty := rfl
  have hsclen : sc.table.length = R.table.length := by
    rw [hsctab]
    simp
  have hAKsc : allKeys sc = T ++ D := by
    show (sc.table.map Bucket.copy).flatten = _
    rw [hsctab, hsetdec]
    simp [Bucket.copy_empty]
  have hAKs : allKeys s = T ++ B.copy ++ D := by
    rw [← hAK0]
    show (R.table.map Bucket.copy).flatten = _
    rw [hdec]
  have hperm : List.Perm (allKeys s) (B.copy ++ (T ++ D)) := by
    rw [hAKs]
    exact perm_extract_mid T B.copy D
  have hndext : (B.copy ++ (T ++ D)).Nodup := by
    rw [← hperm.nodup_iff]
    exact hndS
  have hndparts := List.nodup_append.mp hndext
  have hAKfin : allKeys (splitAdvance sc) = T ++ D := by
    rw [allKeys_splitAdvance, hAKsc]
  have hlenfin : (splitAdvance sc).table.length = R.table.length := by
    rw [splitAdvance_table, hsclen]
  have htsfin : (splitAdvance sc).table_size = 2 ^ (s.split_round + 1) := by
    rw [splitAdvance_table_size]
    show R.table_size = _
    exact hts0
  have hitemsfin : (splitAdvance sc).table_items_size =
      (s.table_items_size + (W - B.copy.length % W)) % W := by
    rw [splitAdvance_table_items_size]
    show (R.table_items_size + (W - B.size % W)) % W = _
    rw [hi0, hBsize]
  have hplaced_sc : ∀ j, j < sc.table.length →
      ∀ x ∈ (sc.table.getD j Bucket.empty).copy,
        idxOf hash s.split_round pI x = j := by
    intro j hj x hx
    rw [hsctab] at hx
    by_cases hjp : j = pI
    · subst hjp
      rw [list_getD_set_self _ _ _ _ hplt] at hx
      simp [Bucket.copy_empty] at hx
    · rw [list_getD_set_ne _ _ _ _ _ (fun he => hjp he.symm)] at hx
      have := hpl0 j (List.mem_range.mpr (by rwa [hsclen] at hj)) x hx
      rw [bucket_at_eq_idxOf, hd0, hp0] at this
      exact this
  by_cases hadv : 2 ^ sc.split_round ≤ sc.table_split_index
  · -- round boundary: pI = 2^split_round, pointer resets, round increments
    have hpEq : pI = 2 ^ s.split_round := by
      rw [hscd, hscp] at hadv
      omega
    obtain ⟨had, hap⟩ := splitAdvance_of_le sc hadv
    have hfind : (splitAdvance sc).split_round = s.split_round + 1 := by
      rw [had, hscd]
    have hfinp : (splitAdvance sc).table_split_index = 0 := hap
    have hplaced_fin : Placed hash (splitAdvance sc) := by
      intro j hj x hx
      rw [bucket_at_eq_idxOf, hfind, hfinp, idxOf_roundinc, ← hpEq]
      rw [splitAdvance_table] at hx
      exact hplaced_sc j (by rwa [List.mem_range, splitAdvance_table] at hj) x hx
    refine ⟨⟨⟨?_, ?_, ?_⟩, hplaced_fin, ?_, ?_⟩, ?_, ?_, ?_, ?_, ?_, ?_⟩
    · rw [hlenfin, htsfin, hlen0, hts0]
    · rw [hfind]
      omega
    · left
      rw [hfinp, htsfin, hfind]
      exact ⟨rfl, rfl⟩
    · rw [hAKfin]
      exact hndparts.2.1
    · intro b hb
      rw [splitAdvance_table, hsctab] at hb
      rcases List.mem_or_eq_of_mem_set hb with hmem | heq
      · exact hcanon0 b hmem
      · rw [heq]
        rfl
    · rw [hAKfin]
      exact hperm
    · exact hndparts.1
    · intro v hv
      rw [hAKfin]
      exact hndparts.2.2 hv
    · exact hitemsfin
    · exact htsfin
    · left
      exact ⟨hpEq, hfind, hfinp⟩
  · -- mid round: pointer advances by one
    have hpLt : pI < 2 ^ s.split_round := by
      rw [hscd, hscp] at hadv
      omega
    obtain ⟨had, hap⟩ := splitAdvance_of_lt sc hadv
    have hfind : (splitAdvance sc).split_round = s.split_round := by
      rw [had, hscd]
    have hfinp : (splitAdvance sc).table_split_index = pI + 1 := by
      rw [hap, hscp]
    have hplaced_fin : Placed hash (splitAdvance sc) := by
      intro j hj x hx
      rw [splitAdvance_table] at hx
      have hidx := hplaced_sc j (by rwa [List.mem_range, splitAdvance_table] at hj)
        x hx
      rw [bucket_at_eq_idxOf, hfind, hfinp]
      rw [idxOf_succ hash s.split_round pI x ?hne]
      · exact hidx
      case hne =>
        rw [hidx]
        intro hcontra
        subst hcontra
        rw [hsctab, list_getD_set_self _ _ _ _ hplt] at hx
        simp [Bucket.copy_empty] at hx
    refine ⟨⟨⟨?_, ?_, ?_⟩, hplaced_fin, ?_, ?_⟩, ?_, ?_, ?_, ?_, ?_, ?_⟩
    · rw [hlenfin, htsfin, hlen0, hts0]
    · rw [hfind]
      exact hd1
    · right
      rw [hfinp, htsfin, hfind]
      exact ⟨by omega, by omega, rfl⟩
    · rw [hAKfin]
      exact hndparts.2.1
    · intro b hb
      rw [splitAdvance_table, hsctab] at hb
      rcases List.mem_or_eq_of_mem_set hb with hmem | heq
      · exact hcanon0 b hmem
      · rw [heq]
        rfl
    · rw [hAKfin]
      exact hperm
    · exact hndparts.1
    · intro v hv
      rw [hAKfin]
      exact hndparts.2.2 hv
    · exact hitemsfin
    · exact htsfin
    · right
      exact ⟨hpLt, hfind, hfinp⟩

theorem split_eq_foldl (hash : Key → Nat) (N : Nat) (s : ADS_set Key) :
    split hash N s = (splitPrep s).2.foldl (addNF hash N) (splitPrep s).1 := rfl

theorem split_spec (hash : Key → Nat) (N : Nat) (s : ADS_set Key)
    (hs : InvCore hash N s) (hsW : s.table_items_size < W) :
    InvCore hash N (split hash N s) ∧
    List.Perm (allKeys (split hash N s)) (allKeys s) ∧
    (split hash N s).table_items_size = s.table_items_size := by
  obtain ⟨hcore1, hperm1, hnd1, hfresh1, hitems1, hts1, htrans⟩ :=
    splitPrep_spec hash N s hs
  have hW1 : (splitPrep s).1.table_items_size < W := by
    rw [hitems1]
    exact Nat.mod_lt _ W_pos
  obtain ⟨g1, g2, _, _, _, _, g7⟩ :=
    foldl_addNF_spec hash N (splitPrep s).2 (splitPrep s).1 hcore1 hW1 hnd1 hfresh1
  rw [split_eq_foldl]
  refine ⟨g1, ?_, ?_⟩
  · refine g2.trans ?_
    refine (List.perm_append_comm).trans ?_
    exact hperm1.symm
  · rw [g7, hitems1, mod_sub_add_cancel]
    exact Nat.mod_eq_of_lt hsW

theorem add_spec (hash : Key → Nat) (N : Nat) (s : ADS_set Key) (k : Key)
    (hs : Inv hash N s) :
    Inv hash N (add hash N s k) ∧
    (∀ x, x ∈ allKeys (add hash N s k) ↔ x ∈ allKeys s ∨ x = k) := by
  obtain ⟨hcore, hitems⟩ := hs
  by_cases hk : k ∈ allKeys s
  · rw [add_of_mem hash N s k hcore.2.1 hk]
    refine ⟨⟨hcore, hitems⟩, ?_⟩
    intro x
    constructor
    · intro hx
      exact Or.inl hx
    · rintro (hx | hx)
      · exact hx
      · exact hx ▸ hk
  · have hc : count hash s k = 0 := count_eq_zero_of_not_mem hash s k hk
    obtain ⟨hcoreS, hpermS⟩ := store_spec hash N s k hcore hk
    have hWs : (store hash N s k).1.table_items_size < W := by
      rw [store_table_items_size, hitems]
      exact Nat.mod_lt _ W_pos
    have hlen : (allKeys (store hash N s k).1).length = (allKeys s).length + 1 := by
      rw [hpermS.length_eq]
      simp
    by_cases hov : (store hash N s k).2
    · obtain ⟨hcore2, hperm2, hitems2⟩ :=
        split_spec hash N (store hash N s k).1 hcoreS hWs
      have haddP : add hash N s k =
          { split hash N (store hash N s k).1 with
            table_items_size :=
              ((split hash N (store hash N s k).1).table_items_size + 1) % W } := by
        unfold add
        rw [if_neg (by simp [hc]), if_pos hov]
      rw [haddP]
      have hpermF : List.Perm (allKeys (split hash N (store hash N s k).1))
          (allKeys s ++ [k]) := hperm2.trans hpermS
      refine ⟨⟨(invCore_items_update hash N _ _).mpr hcore2, ?_⟩, ?_⟩
      · rw [allKeys_items_update, hpermF.length_eq]
        show _ % W = _
        rw [hitems2, store_table_items_size, hitems, Nat.mod_add_mod]
        simp
      · intro x
        rw [allKeys_items_update, hpermF.mem_iff]
        simp
    · have haddN : add hash N s k =
          { (store hash N s k).1 with
            table_items_size :=
              ((store hash N s k).1.table_items_size + 1) % W } := by
        unfold add
        rw [if_neg (by simp [hc]), if_neg hov]
      rw [haddN]
      refine ⟨⟨(invCore_items_update hash N _ _).mpr hcoreS, ?_⟩, ?_⟩
      · rw [allKeys_items_update, hlen]
        show _ % W = _
        rw [store_table_items_size, hitems, Nat.mod_add_mod]
      · intro x
        rw [allKeys_items_update, hpermS.mem_iff]
        simp

theorem inv_init (hash : Key → Nat) (N : Nat) :
    Inv hash N (init : ADS_set Key) := by
  refine ⟨⟨⟨rfl, le_refl 1, Or.inl ⟨rfl, rfl⟩⟩, ?_, ?_, ?_⟩, rfl⟩
  · intro i hi x hx
    have : (init : ADS_set Key).table.getD i Bucket.empty = Bucket.empty := by
      rw [List.mem_range] at hi
      show (List.replicate (2 ^ 1) Bucket.empty).getD i Bucket.empty = _
      rcases Nat.lt_or_ge i (2 ^ 1) with hlt | hge
      · have h01 : i = 0 ∨ i = 1 := by omega
        rw [list_getD_eq_getElem _ _ _ (by simpa using hlt)]
        rcases h01 with h | h <;> subst h <;> rfl
      · exact list_getD_of_le _ _ _ (by simpa using hge)
    rw [this] at hx
    simp [Bucket.copy_empty] at hx
  · show ((List.replicate (2 ^ 1) Bucket.empty).map Bucket.copy).flatten.Nodup
    rw [List.map_replicate]
    rw [Bucket.copy_empty, flatten_replicate_nil]
    exact List.nodup_nil
  · intro b hb
    rw [List.eq_of_mem_replicate (show b ∈ List.replicate (2 ^ 1) Bucket.empty from hb)]
    rfl

theorem reachable_inv (hash : Key → Nat) (N : Nat) (s : ADS_set Key)
    (hr : Reachable hash N s) : Inv hash N s := by
  induction hr with
  | base => exact inv_init hash N
  | step t k _ ih => exact (add_spec hash N t k ih).1

theorem insertAll_spec (hash : Key → Nat) (N : Nat) :
    ∀ (l : List Key) (s : ADS_set Key), Inv hash N s →
    Inv hash N (insertAll hash N s l) ∧
    (∀ x, x ∈ allKeys (insertAll hash N s l) ↔ x ∈ allKeys s ∨ x ∈ l) := by
  intro l
  induction l with
  | nil =>
    intro s hs
    exact ⟨hs, by simp [insertAll]⟩
  | cons v rest ih =>
    intro s hs
    obtain ⟨h1, h2⟩ := add_spec hash N s v hs
    obtain ⟨g1, g2⟩ := ih (add hash N s v) h1
    have hstep : insertAll hash N s (v :: rest) =
        insertAll hash N (add hash N s v) rest := rfl
    rw [hstep]
    refine ⟨g1, ?_⟩
    intro x
    rw [g2 x, h2 x]
    simp
    tauto

theorem reachable_insertAll (hash : Key → Nat) (N : Nat) (l : List Key) :
    Reachable hash N (insertAll hash N init l) := by
  suffices hgen : ∀ (l : List Key) (s : ADS_set Key), Reachable hash N s →
      Reachable hash N (insertAll hash N s l) by
    exact hgen l init Reachable.base
  intro l
  induction l with
  | nil =>
    intro s hs
    exact hs
  | cons v rest ih =>
    intro s hs
    exact ih (add hash N s v) (Reachable.step s v hs)

theorem mem_allKeys_insertAll_init (hash : Key → Nat) (N : Nat) (l : List Key)
    (x : Key) : x ∈ allKeys (insertAll hash N (init : ADS_set Key) l) ↔ x ∈ l := by
  rw [(insertAll_spec hash N l init (inv_init hash N)).2 x]
  have hempty : allKeys (init : ADS_set Key) = [] := by
    show ((List.replicate (2 ^ 1) Bucket.empty).map Bucket.copy).flatten = []
    rw [List.map_replicate, Bucket.copy_empty, flatten_replicate_nil]
  rw [hempty]
  simp

theorem geom_store (hash : Key → Nat) (N : Nat) (s : ADS_set Key) (k : Key)
    (hg : Geom s) : Geom (store hash N s k).1 :=
  (geom_congr _ s (store_table_length hash N s k) rfl rfl rfl).mpr hg

theorem geom_addNF (hash : Key → Nat) (N : Nat) (s : ADS_set Key) (k : Key)
    (hg : Geom s) : Geom (addNF hash N s k) := by
  unfold addNF
  split
  · exact hg
  · exact (geom_congr _ (store hash N s k).1 rfl rfl rfl rfl).mpr
      (geom_store hash N s k hg)

theorem geom_foldl_addNF (hash : Key → Nat) (N : Nat) :
    ∀ (vs : List Key) (s : ADS_set Key), Geom s →
      Geom (vs.foldl (addNF hash N) s) := by
  intro vs
  induction vs with
  | nil =>
    intro s hg
    exact hg
  | cons v rest ih =>
    intro s hg
    exact ih (addNF hash N s v) (geom_addNF hash N s v hg)

theorem geom_splitAdvance (t : ADS_set Key) (hlen : t.table.length = t.table_size)
    (hd1 : 1 ≤ t.split_round) (hts : t.table_size = 2 ^ (t.split_round + 1))
    (hple : t.table_split_index ≤ 2 ^ t.split_round) : Geom (splitAdvance t) := by
  unfold splitAdvance
  by_cases hadv : 2 ^ t.split_round ≤ t.table_split_index
  · rw [if_pos hadv]
    refine ⟨hlen, Nat.le_add_left 1 _, Or.inl ⟨rfl, ?_⟩⟩
    show t.table_size = 2 ^ (t.split_round + 1)
    exact hts
  · rw [if_neg hadv]
    refine ⟨hlen, hd1, Or.inr ⟨Nat.le_add_left 1 _, ?_, ?_⟩⟩
    · show t.table_split_index + 1 ≤ 2 ^ t.split_round
      omega
    · show t.table_size = 2 ^ (t.split_round + 1)
      exact hts

theorem geom_splitPrep (s : ADS_set Key) (hg : Geom s) : Geom (splitPrep s).1 := by
  obtain ⟨hl, hd1, hcase⟩ := hg
  have hple : s.table_split_index ≤ 2 ^ s.split_round := by
    rcases hcase with ⟨h0, _⟩ | ⟨_, hle, _⟩
    · omega
    · exact hle
  have h0 : (splitResv s).split_round = s.split_round ∧
      (splitResv s).table_split_index = s.table_split_index ∧
      (splitResv s).table_size = 2 ^ (s.split_round + 1) ∧
      (splitResv s).table.length = (splitResv s).table_size := by
    unfold splitResv
    by_cases hres : s.table_size = 2 ^ s.split_round
    · rw [if_pos hres]
      refine ⟨rfl, rfl, ?_, ?_⟩
      · show s.table_size * 2 = _
        rw [hres, Nat.pow_succ]
      · show (s.table.take s.table_size ++
          List.replicate (s.table_size * 2 - s.table_size) Bucket.empty).length =
            s.table_size * 2
        rw [List.take_of_length_le (le_of_eq hl)]
        simp
        omega
    · rw [if_neg hres]
      have hts : s.table_size = 2 ^ (s.split_round + 1) := by
        rcases hcase with ⟨_, hts⟩ | ⟨_, _, hts⟩
        · exact absurd hts hres
        · exact hts
      exact ⟨rfl, rfl, hts, hl⟩
  obtain ⟨hRd, hRp, hRts, hRlen⟩ := h0
  rw [splitPrep_fst]
  -- the cleared intermediate state
  have hscd : ∀ t : ADS_set Key, t = { splitResv s with
      table := (splitResv s).table.set (splitResv s).table_split_index
        (((splitResv s).table.getD (splitResv s).table_split_index
          Bucket.empty).clear),
      table_items_size := ((splitResv s).table_items_size +
        (W - ((splitResv s).table.getD (splitResv s).table_split_index
          Bucket.empty).size % W)) % W } →
      t.split_round = s.split_round ∧ t.table_split_index = s.table_split_index ∧
      t.table_size = 2 ^ (s.split_round + 1) ∧ t.table.length = t.table_size := by
    intro t ht
    subst ht
    refine ⟨hRd, hRp, hRts, ?_⟩
    show ((splitResv s).table.set _ _).length = (splitResv s).table_size
    rw [List.length_set]
    exact hRlen.trans rfl
  obtain ⟨hscd1, hscd2, hscd3, hscd4⟩ := hscd _ rfl
  refine geom_splitAdvance _ hscd4 (hscd1.symm ▸ hd1) ?_ ?_
  · rw [hscd3, hscd1]
  · rw [hscd2, hscd1]
    exact hple

theorem geom_splitMid (hash : Key → Nat) (N : Nat) (s : ADS_set Key) (k0 : Key)
    (n : Nat) (hg : Geom s) : Geom (splitMid hash N s k0 n) := by
  unfold splitMid
  exact geom_foldl_addNF hash N _ _
    (geom_splitPrep _ (geom_store hash N s k0 hg))

/-- Claim C1: after any finite sequence of inserts into a default-constructed
table, every inserted key has count 1 and every never-inserted key has
count 0. -/
theorem claim_C1 (hash : Key → Nat) (N : Nat) (l : List Key) (k : Key) :
    (k ∈ l → count hash (insertAll hash N init l) k = 1) ∧
    (k ∉ l → count hash (insertAll hash N init l) k = 0) := by
  have hinv := (insertAll_spec hash N l init (inv_init hash N)).1
  have hmem := mem_allKeys_insertAll_init hash N l k
  constructor
  · intro hkl
    exact count_eq_one_of_mem hash _ k hinv.1.2.1 (hmem.mpr hkl)
  · intro hkl
    exact count_eq_zero_of_not_mem hash _ k (fun hc => hkl (hmem.mp hc))

theorem claim_C1_witness :
    count idHash (insertAll idHash 5 init [5, 3]) 3 = 1 ∧
    count idHash (insertAll idHash 5 init [5, 3]) 7 = 0 :=
  ⟨(claim_C1 idHash 5 [5, 3] 3).1 (by decide),
   (claim_C1 idHash 5 [5, 3] 7).2 (by decide)⟩

/-- Claim C2: after any finite sequence of inserts into a default-constructed
table (fewer than 2^64 insert operations, the physical limit of the 64-bit
counter), size() equals the number of distinct keys inserted. -/
theorem claim_C2 (hash : Key → Nat) (N : Nat) (l : List Key)
    (hl : l.length < W) : size (insertAll hash N init l) = l.dedup.length := by
  obtain ⟨⟨hcore, hitems⟩, _⟩ := insertAll_spec hash N l init (inv_init hash N)
  have hnd : (allKeys (insertAll hash N init l)).Nodup := hcore.2.2.1
  have hperm : List.Perm (allKeys (insertAll hash N init l)) l.dedup := by
    rw [List.perm_ext_iff_of_nodup hnd (List.nodup_dedup l)]
    intro x
    rw [mem_allKeys_insertAll_init, List.mem_dedup]
  have hle : l.dedup.length ≤ l.length := (List.dedup_sublist l).length_le
  show (insertAll hash N init l).table_items_size = _
  rw [hitems, hperm.length_eq, Nat.mod_eq_of_lt (by omega)]

theorem claim_C2_witness :
    size (insertAll idHash 5 init [1, 1, 2]) = ([1, 1, 2] : List Nat).dedup.length :=
  claim_C2 idHash 5 [1, 1, 2] (by norm_num [W])

/-- Claim C3: in every reachable state, every stored key resides in exactly
the bucket computed by the current indexing rule bucket_at (hash mod
2^split_round, replaced by hash mod 2^(split_round+1) below the split
pointer); every mutation preserves this. -/
theorem claim_C3 (hash : Key → Nat) (N : Nat) (s : ADS_set Key)
    (hr : Reachable hash N s) :
    ∀ i ∈ List.range s.table.length,
      ∀ k ∈ (s.table.getD i Bucket.empty).copy, bucket_at hash s k = i :=
  ((reachable_inv hash N s hr).1).2.1

theorem claim_C3_witness :
    bucket_at idHash (insertAll idHash 5 init seq12) 4 = 0 :=
  claim_C3 idHash 5 _ (reachable_insertAll idHash 5 seq12) 0 (by decide) 4
    (by decide)

/-- Claim C4, counterexample: a reachable state (N = 5, identity hash, the
twelve keys of seq12) in which table_split_index equals 2^split_round, so the
claimed half-open range [0, 2^split_round) is violated. -/
theorem claim_C4_counterexample :
    ¬ ((insertAll idHash 5 init seq12).table_split_index <
        2 ^ (insertAll idHash 5 init seq12).split_round) := by decide

/-- Claim C4, amended: in every reachable state table_split_index lies in the
closed range [0, 2^split_round]; it can momentarily equal 2^split_round after
the last split of a round, and is reset to 0 (with split_round incremented) at
the start of the next split. -/
theorem claim_C4 (hash : Key → Nat) (N : Nat) (s : ADS_set Key)
    (hr : Reachable hash N s) : s.table_split_index ≤ 2 ^ s.split_round := by
  obtain ⟨⟨⟨_, _, hcase⟩, _, _, _⟩, _⟩ := reachable_inv hash N s hr
  rcases hcase with ⟨h0, _⟩ | ⟨_, hle, _⟩
  · omega
  · exact hle

theorem claim_C4_witness :
    (insertAll idHash 5 init seq12).table_split_index ≤
      2 ^ (insertAll idHash 5 init seq12).split_round :=
  claim_C4 idHash 5 _ (reachable_insertAll idHash 5 seq12)

/-- Claim C5, counterexample: constructing with N = 5 from the initializer
batch {1,2,3,4,5,6} (identity hash) performs no split at all: afterwards
split_round = 1 and table_split_index = 0, exactly the initial state, because
the six keys distribute by parity, three per bucket, and neither bucket
overflows its capacity-5 slice. -/
theorem claim_C5_counterexample :
    (insertAll idHash 5 init [1, 2, 3, 4, 5, 6]).split_round = 1 ∧
    (insertAll idHash 5 init [1, 2, 3, 4, 5, 6]).table_split_index = 0 := by
  decide

/-- Claim C5, amended: constructing with N = 5 from the initializer batch
{1,2,3,4,5,6} performs no split: the keys land three per bucket, size() is 6,
split_round and table_split_index keep their initial values 1 and 0. -/
theorem claim_C5 :
    insertAllSplitCount idHash 5 init [1, 2, 3, 4, 5, 6] = 0 ∧
    (insertAll idHash 5 init [1, 2, 3, 4, 5, 6]).split_round = 1 ∧
    (insertAll idHash 5 init [1, 2, 3, 4, 5, 6]).table_split_index = 0 ∧
    size (insertAll idHash 5 init [1, 2, 3, 4, 5, 6]) = 6 ∧
    (insertAll idHash 5 init [1, 2, 3, 4, 5, 6]).table.map Bucket.copy =
      [[2, 4, 6], [1, 3, 5]] := by decide

/-- Claim C6 (code bug in the source): the claimed reset behavior holds of
the spec-modelled clear — it yields the default-constructed state, with
size() = 0 and empty() = true, and a subsequent insert of any key behaves
exactly as an insert into a freshly default-constructed table.  The source
itself cannot execute this: any use of clear() instantiates ADS_set::swap,
whose std::swap on the const hasher member is ill-formed, so the program
fails to compile at the first call of clear() or swap(). -/
theorem claim_C6 (hash : Key → Nat) (N : Nat) (s : ADS_set Key) (k : Key) :
    clear s = init ∧ size (clear s) = 0 ∧ empty (clear s) = true ∧
    add hash N (clear s) k = add hash N init k :=
  ⟨rfl, rfl, rfl, rfl⟩

/-- Claim C7: one call of add(key, overflowable) invokes split exactly once
when the key is fresh, overflowable holds and Bucket::add reports an
overflow, and never otherwise; in particular add(key, false), the
redistribution path used inside split, never invokes split. -/
theorem claim_C7 (hash : Key → Nat) (N : Nat) (s : ADS_set Key) (k : Key) :
    addSplitCount hash N s k false = 0 ∧
    addSplitCount hash N s k true =
      (if count hash s k ≠ 0 then 0
       else if (store hash N s k).2 then 1 else 0) := by
  constructor
  · unfold addSplitCount
    by_cases hc : count hash s k ≠ 0 <;> simp [hc]
  · unfold addSplitCount
    by_cases hc : count hash s k ≠ 0
    · simp [hc]
    · by_cases hov : (store hash N s k).2 <;> simp [hc, hov, foldl_add_zero]

/-- Claim C8: in every reachable state the bucket index computed by bucket_at
is below table_size (and the bucket array really has table_size entries), so
the accesses table[index] in locate and add are in bounds; the same holds in
every transient state of the redistribution loop of a split, right after the
split pointer has advanced. -/
theorem claim_C8 (hash : Key → Nat) (N : Nat) (s : ADS_set Key)
    (hr : Reachable hash N s) :
    (s.table.length = s.table_size ∧ ∀ k, bucket_at hash s k < s.table_size) ∧
    (∀ (k0 : Key) (n : Nat),
      (splitMid hash N s k0 n).table.length =
        (splitMid hash N s k0 n).table_size ∧
      ∀ k, bucket_at hash (splitMid hash N s k0 n) k <
        (splitMid hash N s k0 n).table_size) := by
  have hg : Geom s := (reachable_inv hash N s hr).1.1
  refine ⟨⟨hg.1, fun k => bucket_at_lt_of_geom hash s k hg⟩, ?_⟩
  intro k0 n
  have hgm : Geom (splitMid hash N s k0 n) := geom_splitMid hash N s k0 n hg
  exact ⟨hgm.1, fun k => bucket_at_lt_of_geom hash _ k hgm⟩

theorem claim_C8_witness :
    bucket_at idHash (insertAll idHash 5 init [0, 2, 4, 6, 8]) 10 <
      (insertAll idHash 5 init [0, 2, 4, 6, 8]).table_size :=
  ((claim_C8 idHash 5 _ (reachable_insertAll idHash 5 [0, 2, 4, 6, 8])).1.2) 10

/-- Claim C9: concrete run with N = 5 and the identity hash exhibiting the
unsigned wrap in the subtraction of ADS_set::split.  After inserting
[0,2,4,6,8] the counter is 5 and the split pointer is 0; inserting the fresh
key 10 lands in bucket 0 (the bucket about to split, which then holds all six
stored keys) and overflows it; inside split the subtraction 5 - 6 wraps to
2^64 - 1; after the redistribution loop and the final increment in add the
counter is 6, the true number of distinct stored keys. -/
theorem claim_C9 :
    count idHash (insertAll idHash 5 init [0, 2, 4, 6, 8]) 10 = 0 ∧
    (store idHash 5 (insertAll idHash 5 init [0, 2, 4, 6, 8]) 10).2 = true ∧
    (insertAll idHash 5 init [0, 2, 4, 6, 8]).table_items_size = 5 ∧
    (insertAll idHash 5 init [0, 2, 4, 6, 8]).table_split_index = 0 ∧
    ((store idHash 5 (insertAll idHash 5 init [0, 2, 4, 6, 8]) 10).1.table.getD 0
      Bucket.empty).size = 6 ∧
    (splitPrep
      (store idHash 5 (insertAll idHash 5 init [0, 2, 4, 6, 8]) 10).1).1.table_items_size =
      2 ^ 64 - 1 ∧
    size (insertAll idHash 5 init [0, 2, 4, 6, 8, 10]) = 6 ∧
    (allKeys (insertAll idHash 5 init [0, 2, 4, 6, 8, 10])).length = 6 ∧
    (allKeys (insertAll idHash 5 init [0, 2, 4, 6, 8, 10])).Nodup := by decide

theorem roundRebuild_items (N : Nat) (s : ADS_set Key) (m : Nat) (u : List Key) :
    (roundRebuild N s m u).table_items_size =
      ((s.table_items_size + (W - m % W)) % W + u.length) % W := rfl

/-- Claim C10: a split that starts with table_split_index = 2^split_round
resets the pointer to 0 and increments the round before redistributing, and
every extracted key is re-inserted into the same bucket under the updated
rule: the split changes only split_round and table_split_index, leaving the
bucket array, table_size and table_items_size unchanged. -/
theorem claim_C10 (hash : Key → Nat) (N : Nat) (s : ADS_set Key)
    (hs : InvCore hash N s) (hW : s.table_items_size < W)
    (hp : s.table_split_index = 2 ^ s.split_round) :
    (split hash N s).split_round = s.split_round + 1 ∧
    (split hash N s).table_split_index = 0 ∧
    (split hash N s).table = s.table ∧
    (split hash N s).table_size = s.table_size ∧
    (split hash N s).table_items_size = s.table_items_size := by
  obtain ⟨⟨hl, hd1, hcase⟩, hpl, hnd, hcanon⟩ := hs
  have hpow := pow_lt_pow_succ_two s.split_round
  have hpos : (0:Nat) < 2 ^ s.split_round := Nat.pos_pow_of_pos _ (by norm_num)
  have hts : s.table_size = 2 ^ (s.split_round + 1) := by
    rcases hcase with ⟨h0, _⟩ | ⟨_, _, hts⟩
    · omega
    · exact hts
  have hresv : splitResv s = s := by
    unfold splitResv
    rw [if_neg (by omega)]
  have hplt : s.table_split_index < s.table.length := by
    rw [hl, hts]
    omega
  have hBmem : s.table.getD s.table_split_index Bucket.empty ∈ s.table := by
    rw [list_getD_eq_getElem _ _ _ hplt]
    exact List.getElem_mem hplt
  have hBcanon : s.table.getD s.table_split_index Bucket.empty =
      Bucket.build N (s.table.getD s.table_split_index Bucket.empty).copy :=
    hcanon _ hBmem
  have hBsize : (s.table.getD s.table_split_index Bucket.empty).size =
      (s.table.getD s.table_split_index Bucket.empty).copy.length := by
    conv_lhs => rw [hBcanon]
    rw [Bucket.size_build]
  have hTD := flatten_map_decomp Bucket.copy s.table s.table_split_index
    Bucket.empty hplt
  set V := (s.table.getD s.table_split_index Bucket.empty).copy with hV
  set T := ((s.table.take s.table_split_index).map Bucket.copy).flatten with hT
  set D := ((s.table.drop (s.table_split_index + 1)).map Bucket.copy).flatten
    with hD
  have hprep2 : (splitPrep s).2 = V := by
    rw [splitPrep_snd, hresv]
  have hadvcond : 2 ^ s.split_round ≤ s.table_split_index := hp.ge
  have hprep1 : (splitPrep s).1 = roundRebuild N s V.length [] := by
    rw [splitPrep_fst, hresv]
    unfold splitAdvance
    rw [if_pos hadvcond]
    apply ADS_set.ext
    · rfl
    · rfl
    · rfl
    · show (s.table_items_size +
          (W - (s.table.getD s.table_split_index Bucket.empty).size % W)) % W =
        (roundRebuild N s V.length []).table_items_size
      rw [roundRebuild_items, hBsize]
      rw [List.length_nil, Nat.add_zero]
      exact (Nat.mod_eq_of_lt (Nat.mod_lt _ W_pos)).symm
    · rfl
  have hndext : (V ++ (T ++ D)).Nodup := by
    refine (perm_extract_mid T V D).nodup_iff.mp ?_
    rw [← hTD]
    exact hnd
  obtain ⟨hndV, hndTD, hdisj⟩ := List.nodup_append.mp hndext
  have hATu : ∀ u, allKeys (roundRebuild N s V.length u) = T ++ u ++ D := by
    intro u
    show ((s.table.set s.table_split_index (Bucket.build N u)).map
      Bucket.copy).flatten = _
    rw [flatten_map_set Bucket.copy s.table _ _ hplt, Bucket.copy_build]
  have hbat : ∀ v ∈ V, ∀ u : List Key,
      bucket_at hash (roundRebuild N s V.length u) v = s.table_split_index := by
    intro v hv u
    have h1 : bucket_at hash s v = s.table_split_index := by
      apply hpl s.table_split_index (List.mem_range.mpr hplt) v
      rw [hV] at hv
      exact hv
    rw [bucket_at_eq_idxOf] at h1 ⊢
    show idxOf hash (s.split_round + 1) 0 v = s.table_split_index
    rw [idxOf_roundinc, ← hp]
    exact h1
  have hstep : ∀ (u : List Key) (v : Key), v ∈ V → v ∉ u →
      addNF hash N (roundRebuild N s V.length u) v =
        roundRebuild N s V.length (u ++ [v]) := by
    intro u v hvV hvu
    have hnotmem : v ∉ allKeys (roundRebuild N s V.length u) := by
      rw [hATu u]
      intro hmem
      rcases List.mem_append.mp hmem with hmem1 | hmemD
      · rcases List.mem_append.mp hmem1 with hmemT | hmemu
        · exact hdisj hvV (List.mem_append.mpr (Or.inl hmemT))
        · exact hvu hmemu
      · exact hdisj hvV (List.mem_append.mpr (Or.inr hmemD))
    have hc : count hash (roundRebuild N s V.length u) v = 0 :=
      count_eq_zero_of_not_mem hash _ v hnotmem
    unfold addNF
    rw [if_neg (by simp [hc])]
    apply ADS_set.ext
    · rfl
    · rfl
    · rfl
    · show ((store hash N (roundRebuild N s V.length u) v).1.table_items_size
          + 1) % W = (roundRebuild N s V.length (u ++ [v])).table_items_size
      rw [store_table_items_size, roundRebuild_items, roundRebuild_items,
        Nat.mod_add_mod, List.length_append, List.length_singleton]
      congr 1
    · show (store hash N (roundRebuild N s V.length u) v).1.table =
        (roundRebuild N s V.length (u ++ [v])).table
      rw [store_table, hbat v hvV u]
      show (s.table.set s.table_split_index (Bucket.build N u)).set
          s.table_split_index
          (((s.table.set s.table_split_index (Bucket.build N u)).getD
            s.table_split_index Bucket.empty).add N v).1 =
        s.table.set s.table_split_index (Bucket.build N (u ++ [v]))
      rw [list_getD_set_self _ _ _ _ hplt, List.set_set, ← Bucket.build_concat]
  have hfold : ∀ (vs u : List Key), vs.Nodup → (∀ x ∈ vs, x ∈ V) →
      (∀ x ∈ vs, x ∉ u) →
      vs.foldl (addNF hash N) (roundRebuild N s V.length u) =
        roundRebuild N s V.length (u ++ vs) := by
    intro vs
    induction vs with
    | nil =>
      intro u _ _ _
      simp
    | cons v vs' ih =>
      intro u hndvs hsub hfr
      have hvV : v ∈ V := hsub v (by simp)
      have hvu : v ∉ u := hfr v (by simp)
      rw [List.foldl_cons, hstep u v hvV hvu]
      have hrec := ih (u ++ [v]) (List.nodup_cons.mp hndvs).2
        (fun x hx => hsub x (by simp [hx]))
        (fun x hx hmem => by
          rcases List.mem_append.mp hmem with hxu | hxv
          · exact hfr x (by simp [hx]) hxu
          · rw [List.mem_singleton.mp hxv] at hx
            exact (List.nodup_cons.mp hndvs).1 hx)
      rw [hrec, List.append_assoc]
      rfl
  have hsplit : split hash N s = roundRebuild N s V.length V := by
    rw [split_eq_foldl, hprep2, hprep1]
    have := hfold V [] hndV (fun x hx => hx) (fun x _ => List.not_mem_nil x)
    rw [this, List.nil_append]
  rw [hsplit]
  refine ⟨rfl, rfl, ?_, rfl, ?_⟩
  · show s.table.set s.table_split_index (Bucket.build N V) = s.table
    rw [← hBcanon]
    exact list_set_getD_self s.table s.table_split_index Bucket.empty hplt
  · rw [roundRebuild_items, mod_sub_add_cancel]
    exact Nat.mod_eq_of_lt hW

theorem claim_C10_witness :
    (split idHash 5 (insertAll idHash 5 init seq12)).split_round =
        (insertAll idHash 5 init seq12).split_round + 1 ∧
    (split idHash 5 (insertAll idHash 5 init seq12)).table_split_index = 0 ∧
    (split idHash 5 (insertAll idHash 5 init seq12)).table =
        (insertAll idHash 5 init seq12).table ∧
    (split idHash 5 (insertAll idHash 5 init seq12)).table_size =
        (insertAll idHash 5 init seq12).table_size ∧
    (split idHash 5 (insertAll idHash 5 init seq12)).table_items_size =
        (insertAll idHash 5 init seq12).table_items_size :=
  claim_C10 idHash 5 (insertAll idHash 5 init seq12) (by decide) (by decide)
    (by decide)

end ADS_set
